import Mathlib

/-!
Shallow embedding of src/fetch_cards.py (the Boomer card-list generator)
and proofs about its merge, slug, percentage-extraction and fetch logic.
-/

namespace Boomer

/-- A record produced by either fetch client (a Python dict with keys
name, oracle_text, reason and optional edhrec_rank / inclusion_percent;
an absent key is modelled as none).  Percentages are modelled as exact
rationals, since the program only carries and compares them. -/
structure CardRecord where
  name : String
  oracle_text : String
  reason : String
  edhrec_rank : Option Int := none
  inclusion_percent : Option Rat := none
deriving DecidableEq, Repr

/-- An entry of the merge dictionary in merge_card_lists (a Python dict
with keys name, oracle_text, reasons and optional edhrec_rank /
inclusion_percent). -/
structure MergedCardRecord where
  name : String
  oracle_text : String
  reasons : List String
  edhrec_rank : Option Int := none
  inclusion_percent : Option Rat := none
deriving DecidableEq, Repr

/-- Appending a reason in merge_card_lists: the source lines
"if card[reason] not in card_dict[name][reasons]: ... append(...)". -/
def addReason (m : MergedCardRecord) (r : String) : MergedCardRecord :=
  if r ∈ m.reasons then m else { m with reasons := m.reasons ++ [r] }

/-- The two conditional field copies in the high-inclusion loop of
merge_card_lists: "if edhrec_rank in card: ..." and
"if inclusion_percent in card: ...". -/
def setRankIncl (m : MergedCardRecord) (card : CardRecord) : MergedCardRecord :=
  let m1 := if card.edhrec_rank.isSome then { m with edhrec_rank := card.edhrec_rank } else m
  if card.inclusion_percent.isSome then { m1 with inclusion_percent := card.inclusion_percent }
  else m1

/-- Dictionary lookup by card name (Python: name in card_dict /
card_dict[name]); the dict is modelled as its insertion-ordered value
list, whose names are unique by construction. -/
def findName (d : List MergedCardRecord) (n : String) : Option MergedCardRecord :=
  d.find? (fun m => m.name == n)

/-- One step of the first merge loop (over commander_only) of
merge_card_lists, lines 183-193 of fetch_cards.py. -/
def addCommander (d : List MergedCardRecord) (card : CardRecord) : List MergedCardRecord :=
  if (d.find? (fun m => m.name == card.name)).isNone then
    d ++ [{ name := card.name, oracle_text := card.oracle_text, reasons := [card.reason] }]
  else
    d.map (fun m => if m.name == card.name then addReason m card.reason else m)

/-- One step of the second merge loop (over high_inclusion) of
merge_card_lists, lines 195-213 of fetch_cards.py. -/
def addHighInclusion (d : List MergedCardRecord) (card : CardRecord) : List MergedCardRecord :=
  if (d.find? (fun m => m.name == card.name)).isNone then
    d ++ [setRankIncl { name := card.name, oracle_text := card.oracle_text,
                        reasons := [card.reason] } card]
  else
    d.map (fun m => if m.name == card.name then setRankIncl (addReason m card.reason) card else m)

/-- Lexicographic (code-point) comparison of character lists; this is how
Python compares the str sort keys in merged_cards.sort(key=...). -/
def charListLe : List Char → List Char → Bool
  | [], _ => true
  | _ :: _, [] => false
  | a :: as, b :: bs =>
    if a.toNat < b.toNat then true
    else if b.toNat < a.toNat then false
    else charListLe as bs

/-- Ordering of merged records by name, ascending. -/
def nameLE (a b : MergedCardRecord) : Prop := charListLe a.name.data b.name.data = true

instance : DecidableRel nameLE := fun a b =>
  inferInstanceAs (Decidable (charListLe a.name.data b.name.data = true))

/-- The final "merged_cards.sort(key=lambda x: x[name])"; Python's stable
sort on the unique names is modelled by insertion sort. -/
def sortByName (l : List MergedCardRecord) : List MergedCardRecord :=
  l.insertionSort nameLE

/-- merge_card_lists of fetch_cards.py: build the dict with the two loops,
take its values in insertion order, and sort them by name. -/
def merge_card_lists (commander_only high_inclusion : List CardRecord) :
    List MergedCardRecord :=
  sortByName (List.foldl addHighInclusion (List.foldl addCommander [] commander_only)
    high_inclusion)

example : merge_card_lists [⟨"b", "tb", "commander_only", none, none⟩]
    [⟨"a", "ta", "r2", some 5, some 10⟩, ⟨"b", "tb2", "r3", some 7, some 2⟩] =
    [⟨"a", "ta", ["r2"], some 5, some 10⟩,
     ⟨"b", "tb", ["commander_only", "r3"], some 7, some 2⟩] := by decide

/-! Specification-side vocabulary used to characterize the merge. -/

/-- A card record with the rank and inclusion fields cleared; the first
merge loop never reads those fields, so it acts like the second loop on
the stripped record. -/
def stripRank (c : CardRecord) : CardRecord :=
  { c with edhrec_rank := none, inclusion_percent := none }

/-- The merged record a name starts from before any reason is added. -/
def blankOf (c : CardRecord) : MergedCardRecord :=
  { name := c.name, oracle_text := c.oracle_text, reasons := [] }

/-- The complete effect of one high-inclusion-loop record on an existing
dictionary entry. -/
def applyCard (m : MergedCardRecord) (c : CardRecord) : MergedCardRecord :=
  setRankIncl (addReason m c.reason) c

/-- The effect of one record on the (possibly absent) entry of its name. -/
def applyOpt (o : Option MergedCardRecord) (c : CardRecord) : Option MergedCardRecord :=
  match o with
  | some m => some (applyCard m c)
  | none => some (applyCard (blankOf c) c)

/-- The last value of a list of optional values that is present, if any. -/
def lastSome {α : Type} : List (Option α) → Option α
  | [] => none
  | o :: os =>
    match lastSome os with
    | some v => some v
    | none => o

/-- Deduplication keeping the first occurrence of each string, in order. -/
def firstOccDedup : List String → List String
  | [] => []
  | r :: rs => r :: firstOccDedup (rs.filter (fun x => !(x == r)))
termination_by l => l.length
decreasing_by
  simp only [List.length_cons]
  exact Nat.lt_succ_of_le (List.length_filter_le _ _)

/-- Written from the specification of the merge: the entry the merged
output associates to a key n.  It exists iff some input record bears the
name n; its oracle text is the first such record's; its reasons are the
reasons of all such records, first occurrence kept; its rank and
inclusion values are the last ones supplied by a second-list record of
that name (the first loop never sets them). -/
def mergeEntrySpec (A B : List CardRecord) (n : String) : Option MergedCardRecord :=
  match ((A ++ B).filter (fun c => c.name == n)).head? with
  | none => none
  | some c0 => some
    { name := c0.name
      oracle_text := c0.oracle_text
      reasons := firstOccDedup (((A ++ B).filter (fun c => c.name == n)).map
        (fun c => c.reason))
      edhrec_rank := lastSome ((B.filter (fun c => c.name == n)).map
        (fun c => c.edhrec_rank))
      inclusion_percent := lastSome ((B.filter (fun c => c.name == n)).map
        (fun c => c.inclusion_percent)) }

/-- The reasons stored in the merged output for a name (empty if absent). -/
def reasonsAt (out : List MergedCardRecord) (n : String) : List String :=
  match findName out n with
  | some m => m.reasons
  | none => []

/-- The merged record a single fetched record gives rise to when merged
against nothing else. -/
def toMerged1 (c : CardRecord) : MergedCardRecord :=
  { name := c.name, oracle_text := c.oracle_text, reasons := [c.reason] }

/-! Slug derivation: sanitize_card_name of fetch_cards.py. -/

/-- Characters matched by the Python regex class backslash-s on str
patterns (Unicode whitespace). -/
def isPySpace (c : Char) : Bool :=
  c == ' ' || c == '\t' || c == '\n' || c == '\r' || c == '\x0b' || c == '\x0c' ||
  c == '\x1c' || c == '\x1d' || c == '\x1e' || c == '\x1f' ||
  c == '\u0085' || c == '\u00A0' || c == '\u1680' ||
  ('\u2000' ≤ c && c ≤ '\u200A') ||
  c == '\u2028' || c == '\u2029' || c == '\u202F' || c == '\u205F' || c == '\u3000'

/-- Characters kept by re.sub of the class complementing
lowercase-alphanumeric, whitespace and hyphen (pattern line 65). -/
def keepChar (c : Char) : Bool :=
  ('a' ≤ c && c ≤ 'z') || ('0' ≤ c && c ≤ '9') || isPySpace c || c == '-'

/-- Replacement of every maximal run of p-characters by a single rep
character, as re.sub of a one-class-plus pattern does; the flag records
whether we are inside a run. -/
def collapseAux (p : Char → Bool) (rep : Char) : Bool → List Char → List Char
  | _, [] => []
  | inRun, c :: cs =>
    if p c then
      (if inRun then collapseAux p rep true cs else rep :: collapseAux p rep true cs)
    else c :: collapseAux p rep false cs

/-- re.sub of a one-class-plus pattern with a single-character replacement. -/
def collapseRuns (p : Char → Bool) (rep : Char) (l : List Char) : List Char :=
  collapseAux p rep false l

/-- Removal of trailing p-characters (the right half of str.strip). -/
def rtrim (p : Char → Bool) : List Char → List Char
  | [] => []
  | c :: cs =>
    let r := rtrim p cs
    if r.isEmpty then (if p c then [] else [c]) else c :: r

/-- Hyphen test used by the collapse and strip steps. -/
def isHyph (c : Char) : Bool := c == '-'

/-- sanitize_card_name of fetch_cards.py, lines 59-68: lowercase, strip
characters outside lowercase-alphanumeric/whitespace/hyphen, collapse
whitespace runs to single hyphens, collapse hyphen runs, and strip edge
hyphens.  Char.toLower models str.lower; the two agree on ASCII. -/
def sanitize_card_name (name : String) : String :=
  let s1 := (name.data.map Char.toLower).filter keepChar
  let s2 := collapseRuns isPySpace '-' s1
  let s3 := collapseRuns isHyph '-' s2
  String.mk (rtrim isHyph (s3.dropWhile isHyph))

example : sanitize_card_name "Uril, the Miststalker" = "uril-the-miststalker" := by decide

/-! Percentage extraction: the label parsing of get_edhrec_inclusion. -/

/-- Attempted match of the pattern digits, optional dot, digits-star,
percent-sign at the head of the character list, returning group 1.  For
this pattern greedy matching never needs to backtrack: shrinking a
greedy digit run leaves a digit at the match point, which neither the
dot nor the percent sign accepts. -/
def matchPercentAt (l : List Char) : Option (List Char) :=
  let d1 := l.takeWhile Char.isDigit
  let r1 := l.dropWhile Char.isDigit
  if d1.isEmpty then none
  else
    match r1 with
    | '.' :: r2 =>
      (match r2.dropWhile Char.isDigit with
       | '%' :: _ => some (d1 ++ '.' :: r2.takeWhile Char.isDigit)
       | _ => none)
    | '%' :: _ => some d1
    | _ => none

/-- re.search: the leftmost position where the pattern matches. -/
def searchPercent : List Char → Option (List Char)
  | [] => none
  | c :: cs =>
    match matchPercentAt (c :: cs) with
    | some g => some g
    | none => searchPercent cs

/-- Numeric value of a digit string. -/
def digitsToNat (ds : List Char) : Nat :=
  ds.foldl (fun n c => 10 * n + (c.toNat - '0'.toNat)) 0

/-- Python float() on a matched group of shape digits, optional dot,
digits; modelled exactly as the rational the decimal numeral denotes. -/
def parseDecimal (g : List Char) : Rat :=
  let ip := g.takeWhile Char.isDigit
  match g.dropWhile Char.isDigit with
  | '.' :: fp => mkRat (digitsToNat ip * 10 ^ fp.length + digitsToNat fp) (10 ^ fp.length)
  | _ => (digitsToNat ip : Rat)

/-- The pure part of get_edhrec_inclusion, fetch_cards.py lines 84-91:
extract a decimal percentage from the statistics label, none when the
pattern does not occur. -/
def get_edhrec_inclusion_from_label (label : String) : Option Rat :=
  (searchPercent label.data).map parseDecimal

example : get_edhrec_inclusion_from_label "In 700 decks \n0.09% of 814495 decks" =
    some (mkRat 9 100) := by decide

/-! Models of the two paginated fetchers.  HTTP traffic is modelled by
the sequence of responses the catalog returns, one per requested page,
and by an oracle giving get_edhrec_inclusion's result per card name. -/

/-- One card object of a catalog search response. -/
structure ScryCard where
  name : String
  oracle_text : String
  edhrec_rank : Option Int := none
deriving DecidableEq, Repr

/-- One catalog search response: HTTP status, data array, has_more flag
(next_page is the next element of the response sequence). -/
structure HttpResp where
  status : Nat
  data : List ScryCard
  has_more : Bool
deriving DecidableEq, Repr

/-- The record fetch_commander_only_cards builds per card (lines 42-47). -/
def commanderRecord (c : ScryCard) : CardRecord :=
  { name := c.name, oracle_text := c.oracle_text, reason := "commander_only" }

/-- fetch_commander_only_cards of fetch_cards.py: paginate while the
status is 200 and has_more holds, accumulating one record per card; a
non-success status ends pagination, keeping what was accumulated. -/
def fetch_commander_only_cards : List HttpResp → List CardRecord
  | [] => []
  | r :: rest =>
    if r.status ≠ 200 then []
    else r.data.map commanderRecord ++
      (if r.has_more then fetch_commander_only_cards rest else [])

/-- Fixed-point formatting with two decimals of a nonnegative rational,
as the Python format spec .2f renders the inclusion percentage: the
number of hundredths is the rounding of 100 times the value (tie
behavior is immaterial here: every percentage the claims evaluate is an
exact multiple of a hundredth). -/
def format2 (p : Rat) : String :=
  let m := ((200 * p.num + (p.den : Int)).fdiv (2 * (p.den : Int))).toNat
  toString (m / 100) ++ "." ++ (if m % 100 < 10 then "0" else "") ++ toString (m % 100)

/-- The record fetch_high_inclusion_cards builds per kept card
(lines 148-154). -/
def hiRecord (c : ScryCard) (p : Rat) : CardRecord :=
  { name := c.name, oracle_text := c.oracle_text,
    reason := "high_inclusion: " ++ format2 p ++ "%",
    edhrec_rank := c.edhrec_rank, inclusion_percent := some p }

/-- The inner loop of fetch_high_inclusion_cards over one page's data
(lines 132-163): look up each card's inclusion, skip it when none,
keep it when at least the threshold, and stop the whole scan at the
first card strictly below the threshold.  Returns the records kept, the
names looked up in order, and whether the scan stopped. -/
def hiPage (incl : String → Option Rat) (threshold : Rat) :
    List ScryCard → List CardRecord × List String × Bool
  | [] => ([], [], false)
  | c :: cs =>
    match incl c.name with
    | none =>
      let r := hiPage incl threshold cs
      (r.1, c.name :: r.2.1, r.2.2)
    | some p =>
      if threshold ≤ p then
        let r := hiPage incl threshold cs
        (hiRecord c p :: r.1, c.name :: r.2.1, r.2.2)
      else ([], [c.name], true)

/-- The page loop of fetch_high_inclusion_cards (lines 122-170),
returning the records kept and the names looked up. -/
def fetch_high_inclusion_trace (incl : String → Option Rat) (threshold : Rat) :
    List HttpResp → List CardRecord × List String
  | [] => ([], [])
  | r :: rest =>
    if r.status ≠ 200 then ([], [])
    else
      let pr := hiPage incl threshold r.data
      if pr.2.2 then (pr.1, pr.2.1)
      else if r.has_more then
        let rec' := fetch_high_inclusion_trace incl threshold rest
        (pr.1 ++ rec'.1, pr.2.1 ++ rec'.2)
      else (pr.1, pr.2.1)

/-- fetch_high_inclusion_cards of fetch_cards.py: the records the scan
returns. -/
def fetch_high_inclusion_cards (incl : String → Option Rat) (threshold : Rat)
    (pages : List HttpResp) : List CardRecord :=
  (fetch_high_inclusion_trace incl threshold pages).1

example :
    fetch_high_inclusion_trace
      (fun n => if n = "card1" then some 10 else if n = "card2" then some 8
        else if n = "card3" then some 3 else if n = "card4" then some 9 else none)
      (mkRat 15 2)
      [⟨200, [⟨"card1", "", some 1⟩, ⟨"card2", "", some 2⟩, ⟨"card3", "", some 3⟩,
        ⟨"card4", "", some 4⟩], true⟩,
       ⟨200, [⟨"card5", "", some 5⟩], false⟩] =
    ([hiRecord ⟨"card1", "", some 1⟩ 10, hiRecord ⟨"card2", "", some 2⟩ 8],
     ["card1", "card2", "card3"]) := by decide

example : hiRecord ⟨"card1", "", some 1⟩ 10 =
    ⟨"card1", "", "high_inclusion: 10.00%", some 1, some 10⟩ := by decide

example : sanitize_card_name "Kenrith's Transformation" = "kenriths-transformation" := by decide

/-- One reason-append step on a reasons list. -/
def addR (rs : List String) (r : String) : List String :=
  if r ∈ rs then rs else rs ++ [r]

/-- The records one page's sub-threshold-free scan emits. -/
def pageEmit (incl : String → Option Rat) (th : Rat) (cards : List ScryCard) :
    List CardRecord :=
  cards.filterMap (fun c =>
    match incl c.name with
    | some p => if th ≤ p then some (hiRecord c p) else none
    | none => none)

/-- Mock inclusion oracle of the early-stop scenario: the rank-ordered
percentages are 10, 8, 3, 9 and a card without data yields none. -/
def mockIncl : String → Option Rat := fun n =>
  if n = "card1" then some 10
  else if n = "card2" then some 8
  else if n = "card3" then some 3
  else if n = "card4" then some 9
  else if n = "cardB" then some 8
  else none

/-! Field-level behavior of the dictionary updates. -/

lemma addReason_name (m : MergedCardRecord) (r : String) : (addReason m r).name = m.name := by
  unfold addReason; split <;> rfl

lemma addReason_oracle (m : MergedCardRecord) (r : String) :
    (addReason m r).oracle_text = m.oracle_text := by
  unfold addReason; split <;> rfl

lemma addReason_rank (m : MergedCardRecord) (r : String) :
    (addReason m r).edhrec_rank = m.edhrec_rank := by
  unfold addReason; split <;> rfl

lemma addReason_incl (m : MergedCardRecord) (r : String) :
    (addReason m r).inclusion_percent = m.inclusion_percent := by
  unfold addReason; split <;> rfl

lemma setRankIncl_name (m : MergedCardRecord) (c : CardRecord) :
    (setRankIncl m c).name = m.name := by
  unfold setRankIncl; dsimp only; split <;> split <;> rfl

lemma setRankIncl_oracle (m : MergedCardRecord) (c : CardRecord) :
    (setRankIncl m c).oracle_text = m.oracle_text := by
  unfold setRankIncl; dsimp only; split <;> split <;> rfl

lemma setRankIncl_reasons (m : MergedCardRecord) (c : CardRecord) :
    (setRankIncl m c).reasons = m.reasons := by
  unfold setRankIncl; dsimp only; split <;> split <;> rfl

lemma setRankIncl_rank (m : MergedCardRecord) (c : CardRecord) :
    (setRankIncl m c).edhrec_rank =
      if c.edhrec_rank.isSome then c.edhrec_rank else m.edhrec_rank := by
  unfold setRankIncl; dsimp only; split <;> split <;> rfl

lemma setRankIncl_incl (m : MergedCardRecord) (c : CardRecord) :
    (setRankIncl m c).inclusion_percent =
      if c.inclusion_percent.isSome then c.inclusion_percent else m.inclusion_percent := by
  unfold setRankIncl; dsimp only; split <;> split <;> rfl

lemma applyCard_name (m : MergedCardRecord) (c : CardRecord) :
    (applyCard m c).name = m.name := by
  unfold applyCard; rw [setRankIncl_name, addReason_name]

lemma applyCard_oracle (m : MergedCardRecord) (c : CardRecord) :
    (applyCard m c).oracle_text = m.oracle_text := by
  unfold applyCard; rw [setRankIncl_oracle, addReason_oracle]

lemma applyCard_reasons (m : MergedCardRecord) (c : CardRecord) :
    (applyCard m c).reasons =
      if c.reason ∈ m.reasons then m.reasons else m.reasons ++ [c.reason] := by
  unfold applyCard; rw [setRankIncl_reasons]; unfold addReason; split <;> rfl

lemma applyCard_rank (m : MergedCardRecord) (c : CardRecord) :
    (applyCard m c).edhrec_rank =
      if c.edhrec_rank.isSome then c.edhrec_rank else m.edhrec_rank := by
  unfold applyCard; rw [setRankIncl_rank, addReason_rank]

lemma applyCard_incl (m : MergedCardRecord) (c : CardRecord) :
    (applyCard m c).inclusion_percent =
      if c.inclusion_percent.isSome then c.inclusion_percent else m.inclusion_percent := by
  unfold applyCard; rw [setRankIncl_incl, addReason_incl]

lemma setRankIncl_stripRank (m : MergedCardRecord) (c : CardRecord) :
    setRankIncl m (stripRank c) = m := by
  unfold setRankIncl stripRank; simp

/-- The first merge loop is the second one acting on the record with its
rank and inclusion fields cleared. -/
lemma addCommander_eq (d : List MergedCardRecord) (c : CardRecord) :
    addCommander d c = addHighInclusion d (stripRank c) := by
  unfold addCommander addHighInclusion
  have hn : (stripRank c).name = c.name := rfl
  have hr : (stripRank c).reason = c.reason := rfl
  have ho : (stripRank c).oracle_text = c.oracle_text := rfl
  rw [hn, hr, ho]
  split
  · rw [setRankIncl_stripRank]
  · exact congrArg (fun f => List.map f d) (funext fun m => by
      by_cases h : (m.name == c.name) = true
      · rw [if_pos h, if_pos h, setRankIncl_stripRank]
      · rw [if_neg h, if_neg h])

/-- The inserted entry is the blank entry acted on by its own record. -/
lemma insert_entry_eq (c : CardRecord) :
    setRankIncl ⟨c.name, c.oracle_text, [c.reason], none, none⟩ c
      = applyCard (blankOf c) c := by
  unfold applyCard blankOf addReason
  simp

/-! Lookup lemmas for the merge dictionary. -/

lemma findName_map_of_name_eq {g : MergedCardRecord → MergedCardRecord}
    (hg : ∀ m, (g m).name = m.name) (d : List MergedCardRecord) (n : String) :
    findName (d.map g) n = (findName d n).map g := by
  induction d with
  | nil => rfl
  | cons m d ih =>
    unfold findName at *
    rw [List.map_cons]
    by_cases h : (m.name == n) = true
    · rw [@List.find?_cons_of_pos _ (fun m => m.name == n) (g m) (List.map g d)
          (show ((g m).name == n) = true by rw [hg]; exact h),
        @List.find?_cons_of_pos _ (fun m => m.name == n) m d h, Option.map_some']
    · rw [@List.find?_cons_of_neg _ (fun m => m.name == n) (g m) (List.map g d)
          (show ¬ ((g m).name == n) = true by rw [hg]; exact h),
        @List.find?_cons_of_neg _ (fun m => m.name == n) m d h, ih]

/-- The effect of one second-loop step on the entry of any name. -/
lemma findName_addHighInclusion (d : List MergedCardRecord) (c : CardRecord) (n : String) :
    findName (addHighInclusion d c) n =
      if (c.name == n) = true then applyOpt (findName d n) c else findName d n := by
  unfold addHighInclusion
  by_cases hfind : ((d.find? (fun m => m.name == c.name)).isNone) = true
  · rw [if_pos hfind]
    have hnone : List.find? (fun m => m.name == c.name) d = none :=
      Option.isNone_iff_eq_none.mp hfind
    unfold findName
    rw [List.find?_append]
    have hename : (setRankIncl ⟨c.name, c.oracle_text, [c.reason], none, none⟩ c).name
        = c.name := setRankIncl_name _ _
    by_cases hc : (c.name == n) = true
    · have hnn : c.name = n := by simpa using hc
      have h1 : List.find? (fun m => m.name == n) d = none := hnn ▸ hnone
      have h2 : List.find? (fun m => m.name == n)
          [setRankIncl ⟨c.name, c.oracle_text, [c.reason], none, none⟩ c]
          = some (setRankIncl ⟨c.name, c.oracle_text, [c.reason], none, none⟩ c) :=
        List.find?_cons_of_pos _ (by rw [hename]; exact hc)
      rw [h1, h2, if_pos hc, insert_entry_eq]
      rfl
    · have h2 : List.find? (fun m => m.name == n)
          [setRankIncl ⟨c.name, c.oracle_text, [c.reason], none, none⟩ c] = none := by
        apply List.find?_eq_none.mpr
        intro x hx
        rw [List.mem_singleton] at hx
        subst hx
        rw [hename]
        simpa using hc
      rw [h2, Option.or_none, if_neg hc]
  · rw [if_neg hfind]
    have hg : ∀ m : MergedCardRecord,
        ((if (m.name == c.name) = true then setRankIncl (addReason m c.reason) c else m)).name
          = m.name := by
      intro m; split
      · rw [setRankIncl_name, addReason_name]
      · rfl
    rw [findName_map_of_name_eq hg]
    by_cases hc : (c.name == n) = true
    · have hnn : c.name = n := by simpa using hc
      rw [if_pos hc]
      have hsome : (d.find? (fun m => m.name == c.name)).isSome = true := by
        cases h : d.find? (fun m => m.name == c.name) with
        | none => rw [h] at hfind; exact absurd rfl hfind
        | some m => rfl
      obtain ⟨m₀, hm₀⟩ := Option.isSome_iff_exists.mp hsome
      have hdn : findName d n = some m₀ := by
        unfold findName; rw [← hnn]; exact hm₀
      rw [hdn, Option.map_some']
      have hm₀n : (m₀.name == c.name) = true := by simpa using List.find?_some hm₀
      rw [if_pos hm₀n]
      rfl
    · rw [if_neg hc]
      cases h : findName d n with
      | none => rfl
      | some m =>
        rw [Option.map_some']
        have hmn : (m.name == n) = true := by
          have h' : List.find? (fun m => m.name == n) d = some m := h
          simpa using List.find?_some h'
        have hmc : ¬ (m.name == c.name) = true := by
          intro hmc
          have h1 : m.name = c.name := by simpa using hmc
          have h2 : m.name = n := by simpa using hmn
          rw [← h1, h2] at hc
          simp at hc
        rw [if_neg hmc]

/-- Entry evolution across a whole second-loop pass. -/
lemma findName_foldl (l : List CardRecord) (d : List MergedCardRecord) (n : String) :
    findName (List.foldl addHighInclusion d l) n =
      List.foldl applyOpt (findName d n) (l.filter (fun c => c.name == n)) := by
  induction l generalizing d with
  | nil => rfl
  | cons c cs ih =>
    rw [List.foldl_cons, ih, findName_addHighInclusion, List.filter_cons]
    by_cases hc : (c.name == n) = true
    · rw [if_pos hc, if_pos hc, List.foldl_cons]
    · rw [if_neg hc, if_neg hc]

/-- Each dictionary step keeps the entry names unique. -/
lemma nodupNames_addHighInclusion (d : List MergedCardRecord) (c : CardRecord)
    (h : (d.map (fun m => m.name)).Nodup) :
    ((addHighInclusion d c).map (fun m => m.name)).Nodup := by
  unfold addHighInclusion
  split
  next hfind =>
    have hnone := List.find?_eq_none.mp (Option.isNone_iff_eq_none.mp hfind)
    rw [List.map_append, List.nodup_append]
    refine ⟨h, by simp, ?_⟩
    intro x hx hx2
    simp only [List.map_cons, List.map_nil, setRankIncl_name, List.mem_singleton] at hx2
    subst hx2
    obtain ⟨m, hm, hmn⟩ := List.mem_map.mp hx
    exact hnone m hm (by simp [hmn])
  next hfind =>
    rw [List.map_map]
    have heq : List.map ((fun m => m.name) ∘ fun m =>
        if (m.name == c.name) = true then setRankIncl (addReason m c.reason) c else m) d
        = List.map (fun m => m.name) d := by
      refine List.map_congr_left fun m _ => ?_
      simp only [Function.comp_apply]
      split
      · rw [setRankIncl_name, addReason_name]
      · rfl
    rw [heq]; exact h

lemma nodupNames_foldl (l : List CardRecord) (d : List MergedCardRecord)
    (h : (d.map (fun m => m.name)).Nodup) :
    ((List.foldl addHighInclusion d l).map (fun m => m.name)).Nodup := by
  induction l generalizing d with
  | nil => exact h
  | cons c cs ih => exact ih _ (nodupNames_addHighInclusion d c h)

/-- On a list with unique names, lookup is invariant under permutation. -/
lemma findName_eq_of_perm {d d' : List MergedCardRecord} (hp : d.Perm d')
    (h : (d.map (fun m => m.name)).Nodup) (n : String) : findName d n = findName d' n := by
  cases hd : findName d n with
  | none =>
    unfold findName at hd ⊢
    symm
    apply List.find?_eq_none.mpr
    intro x hx
    exact List.find?_eq_none.mp hd x (hp.mem_iff.mpr hx)
  | some m =>
    have hd' : List.find? (fun m => m.name == n) d = some m := hd
    have hmem : m ∈ d := List.mem_of_find?_eq_some hd'
    have hpred : (m.name == n) = true := by simpa using List.find?_some hd'
    have hsome : (List.find? (fun m => m.name == n) d').isSome = true :=
      List.find?_isSome.mpr ⟨m, hp.mem_iff.mp hmem, hpred⟩
    obtain ⟨m', hm'⟩ := Option.isSome_iff_exists.mp hsome
    have hmem' : m' ∈ d := hp.mem_iff.mpr (List.mem_of_find?_eq_some hm')
    have hpred' : (m'.name == n) = true := by simpa using List.find?_some hm'
    have hmm : m = m' := by
      apply List.inj_on_of_nodup_map h hmem hmem'
      rw [show m.name = n by simpa using hpred, show m'.name = n by simpa using hpred']
    unfold findName
    rw [hm']
    exact congrArg some hmm

/-- Sorting the dictionary values does not change lookup results. -/
lemma findName_sortByName (d : List MergedCardRecord)
    (h : (d.map (fun m => m.name)).Nodup) (n : String) :
    findName (sortByName d) n = findName d n := by
  have hp : (sortByName d).Perm d := List.perm_insertionSort nameLE d
  have hnd : ((sortByName d).map (fun m => m.name)).Nodup :=
    ((hp.map (fun m => m.name)).nodup_iff).mpr h
  exact findName_eq_of_perm hp hnd n

/-- On a list with unique names, every member is found under its name. -/
lemma findName_of_mem {d : List MergedCardRecord} {m : MergedCardRecord}
    (h : (d.map (fun m => m.name)).Nodup) (hm : m ∈ d) : findName d m.name = some m := by
  have hsome : (List.find? (fun x => x.name == m.name) d).isSome = true :=
    List.find?_isSome.mpr ⟨m, hm, by simp⟩
  obtain ⟨m', hm'⟩ := Option.isSome_iff_exists.mp hsome
  have hmem' : m' ∈ d := List.mem_of_find?_eq_some hm'
  have hpred' : (m'.name == m.name) = true := by simpa using List.find?_some hm'
  have hmm : m' = m := List.inj_on_of_nodup_map h hmem' hm (by simpa using hpred')
  unfold findName
  rw [hm']
  exact congrArg some hmm

/-- The merge is a single second-loop pass over the stripped first list
followed by the second list. -/
lemma merge_card_lists_eq (A B : List CardRecord) :
    merge_card_lists A B =
      sortByName (List.foldl addHighInclusion [] (A.map stripRank ++ B)) := by
  unfold merge_card_lists
  rw [List.foldl_append, List.foldl_map]
  have hac : addCommander = fun d c => addHighInclusion d (stripRank c) :=
    funext fun d => funext fun c => addCommander_eq d c
  rw [hac]

lemma foldl_applyOpt_some (cs : List CardRecord) (m : MergedCardRecord) :
    List.foldl applyOpt (some m) cs = some (List.foldl applyCard m cs) := by
  induction cs generalizing m with
  | nil => rfl
  | cons c cs ih =>
    rw [List.foldl_cons, List.foldl_cons]
    exact ih (applyCard m c)

lemma foldl_applyCard_name (cs : List CardRecord) (m : MergedCardRecord) :
    (List.foldl applyCard m cs).name = m.name := by
  induction cs generalizing m with
  | nil => rfl
  | cons c cs ih => rw [List.foldl_cons, ih, applyCard_name]

lemma foldl_applyCard_oracle (cs : List CardRecord) (m : MergedCardRecord) :
    (List.foldl applyCard m cs).oracle_text = m.oracle_text := by
  induction cs generalizing m with
  | nil => rfl
  | cons c cs ih => rw [List.foldl_cons, ih, applyCard_oracle]

lemma foldl_applyCard_rank (cs : List CardRecord) (m : MergedCardRecord) :
    (List.foldl applyCard m cs).edhrec_rank =
      match lastSome (cs.map (fun c => c.edhrec_rank)) with
      | some v => some v
      | none => m.edhrec_rank := by
  induction cs generalizing m with
  | nil => rfl
  | cons c cs ih =>
    rw [List.foldl_cons, ih, List.map_cons]
    cases h : lastSome (List.map (fun c => c.edhrec_rank) cs) with
    | some v => simp [lastSome, h]
    | none =>
      rw [applyCard_rank]
      cases hc : c.edhrec_rank with
      | some v => simp [lastSome, h, hc]
      | none => simp [lastSome, h, hc]

lemma foldl_applyCard_incl (cs : List CardRecord) (m : MergedCardRecord) :
    (List.foldl applyCard m cs).inclusion_percent =
      match lastSome (cs.map (fun c => c.inclusion_percent)) with
      | some v => some v
      | none => m.inclusion_percent := by
  induction cs generalizing m with
  | nil => rfl
  | cons c cs ih =>
    rw [List.foldl_cons, ih, List.map_cons]
    cases h : lastSome (List.map (fun c => c.inclusion_percent) cs) with
    | some v => simp [lastSome, h]
    | none =>
      rw [applyCard_incl]
      cases hc : c.inclusion_percent with
      | some v => simp [lastSome, h, hc]
      | none => simp [lastSome, h, hc]

lemma foldl_applyCard_reasons (cs : List CardRecord) (m : MergedCardRecord) :
    (List.foldl applyCard m cs).reasons =
      List.foldl addR m.reasons (cs.map (fun c => c.reason)) := by
  induction cs generalizing m with
  | nil => rfl
  | cons c cs ih =>
    rw [List.foldl_cons, ih, List.map_cons, List.foldl_cons]
    have : (applyCard m c).reasons = addR m.reasons c.reason := by
      rw [applyCard_reasons]; rfl
    rw [this]

lemma foldl_addR_eq (rs : List String) : ∀ acc : List String,
    List.foldl addR acc rs =
      acc ++ firstOccDedup (rs.filter (fun r => !(decide (r ∈ acc)))) := by
  induction rs with
  | nil => intro acc; simp [firstOccDedup]
  | cons r rs ih =>
    intro acc
    rw [List.foldl_cons, ih (addR acc r), List.filter_cons]
    by_cases h : r ∈ acc
    · have h1 : addR acc r = acc := by unfold addR; rw [if_pos h]
      have h2 : (!(decide (r ∈ acc))) = false := by simp [h]
      rw [h1, h2]
      simp
    · have h1 : addR acc r = acc ++ [r] := by unfold addR; rw [if_neg h]
      have h2 : (!(decide (r ∈ acc))) = true := by simp [h]
      rw [h1, h2]
      simp only [if_true]
      have hfilter : rs.filter (fun x => !(decide (x ∈ acc ++ [r])))
          = (rs.filter (fun x => !(decide (x ∈ acc)))).filter (fun x => !(x == r)) := by
        rw [List.filter_filter]
        refine List.filter_congr fun x _ => ?_
        by_cases hx1 : x = r
        · subst hx1; simp
        · by_cases hx2 : x ∈ acc <;> simp [hx1, hx2]
      rw [hfilter]
      conv_rhs => rw [firstOccDedup]
      rw [List.append_assoc]
      rfl

lemma mem_firstOccDedup (rs : List String) (x : String) :
    x ∈ firstOccDedup rs ↔ x ∈ rs := by
  induction rs using firstOccDedup.induct with
  | case1 => simp [firstOccDedup]
  | case2 r rs ih =>
    rw [firstOccDedup]
    rw [List.mem_cons, List.mem_cons, ih, List.mem_filter]
    by_cases hx : x = r
    · simp [hx]
    · simp [hx]

lemma nodup_firstOccDedup (rs : List String) : (firstOccDedup rs).Nodup := by
  induction rs using firstOccDedup.induct with
  | case1 => simp [firstOccDedup]
  | case2 r rs ih =>
    rw [firstOccDedup, List.nodup_cons]
    refine ⟨?_, ih⟩
    intro hmem
    rw [mem_firstOccDedup, List.mem_filter] at hmem
    simp at hmem

lemma lastSome_append {α : Type} (xs ys : List (Option α)) :
    lastSome (xs ++ ys) =
      match lastSome ys with
      | some v => some v
      | none => lastSome xs := by
  induction xs with
  | nil =>
    rw [List.nil_append]
    cases h : lastSome ys <;> simp [lastSome, h]
  | cons o os ih =>
    rw [List.cons_append]
    rw [show lastSome (o :: (os ++ ys)) =
      (match lastSome (os ++ ys) with | some v => some v | none => o) from rfl]
    rw [ih]
    cases h1 : lastSome ys <;> cases h2 : lastSome os <;> simp [lastSome, h1, h2]

lemma lastSome_of_all_none {α : Type} (xs : List (Option α)) (h : ∀ x ∈ xs, x = none) :
    lastSome xs = none := by
  induction xs with
  | nil => rfl
  | cons o os ih =>
    have ho : o = none := h o (by simp)
    have hos : lastSome os = none := ih fun x hx => h x (by simp [hx])
    simp [lastSome, hos, ho]

/-- Closed form of the per-name fold from an absent entry. -/
lemma foldl_applyOpt_none (cs : List CardRecord) :
    List.foldl applyOpt none cs =
      match cs.head? with
      | none => none
      | some c => some
        ⟨c.name, c.oracle_text,
         firstOccDedup (cs.map (fun c => c.reason)),
         lastSome (cs.map (fun c => c.edhrec_rank)),
         lastSome (cs.map (fun c => c.inclusion_percent))⟩ := by
  cases cs with
  | nil => rfl
  | cons c cs' =>
    rw [List.foldl_cons]
    rw [show applyOpt none c = some (applyCard (blankOf c) c) from rfl]
    rw [foldl_applyOpt_some]
    show some _ = some _
    congr 1
    have hname : (List.foldl applyCard (applyCard (blankOf c) c) cs').name = c.name := by
      rw [foldl_applyCard_name, applyCard_name]; rfl
    have horacle : (List.foldl applyCard (applyCard (blankOf c) c) cs').oracle_text
        = c.oracle_text := by
      rw [foldl_applyCard_oracle, applyCard_oracle]; rfl
    have hreasons0 : (applyCard (blankOf c) c).reasons = [c.reason] := by
      rw [applyCard_reasons]; simp [blankOf]
    have hrank0 : (applyCard (blankOf c) c).edhrec_rank = c.edhrec_rank := by
      rw [applyCard_rank]
      cases hc : c.edhrec_rank <;> simp [hc, blankOf]
    have hincl0 : (applyCard (blankOf c) c).inclusion_percent = c.inclusion_percent := by
      rw [applyCard_incl]
      cases hc : c.inclusion_percent <;> simp [hc, blankOf]
    have hreasons : (List.foldl applyCard (applyCard (blankOf c) c) cs').reasons
        = firstOccDedup ((c :: cs').map (fun c => c.reason)) := by
      rw [foldl_applyCard_reasons, hreasons0, List.map_cons]
      rw [foldl_addR_eq]
      conv_rhs => rw [firstOccDedup]
      have hf : (cs'.map (fun c => c.reason)).filter
            (fun x => !(decide (x ∈ ([c.reason] : List String))))
          = (cs'.map (fun c => c.reason)).filter (fun x => !(x == c.reason)) := by
        refine List.filter_congr fun x _ => ?_
        by_cases hx : x = c.reason
        · subst hx; simp
        · simp [hx]
      rw [hf]
      rfl
    have hrank : (List.foldl applyCard (applyCard (blankOf c) c) cs').edhrec_rank
        = lastSome ((c :: cs').map (fun c => c.edhrec_rank)) := by
      rw [foldl_applyCard_rank, hrank0, List.map_cons]
      cases h : lastSome (cs'.map (fun c => c.edhrec_rank)) <;> simp [lastSome, h]
    have hincl : (List.foldl applyCard (applyCard (blankOf c) c) cs').inclusion_percent
        = lastSome ((c :: cs').map (fun c => c.inclusion_percent)) := by
      rw [foldl_applyCard_incl, hincl0, List.map_cons]
      cases h : lastSome (cs'.map (fun c => c.inclusion_percent)) <;> simp [lastSome, h]
    cases hfold : List.foldl applyCard (applyCard (blankOf c) c) cs' with
    | mk nm or rs rk ic =>
      rw [hfold] at hname horacle hreasons hrank hincl
      simp only at hname horacle hreasons hrank hincl
      rw [hname, horacle, hreasons, hrank, hincl]

/-- The stripped first-list records contribute reasons but never rank or
inclusion values. -/
lemma lastSome_rank_strip (AF BF : List CardRecord) :
    lastSome ((AF.map stripRank ++ BF).map (fun c => c.edhrec_rank))
      = lastSome (BF.map (fun c => c.edhrec_rank)) := by
  rw [List.map_append, lastSome_append]
  cases h : lastSome (BF.map (fun c => c.edhrec_rank)) with
  | some v => rfl
  | none =>
    have hall : ∀ x ∈ AF.map ((fun c => c.edhrec_rank) ∘ stripRank), x = none := by
      intro x hx
      obtain ⟨c, _, hc⟩ := List.mem_map.mp hx
      rw [← hc]; rfl
    simp [lastSome_of_all_none _ hall]

lemma lastSome_incl_strip (AF BF : List CardRecord) :
    lastSome ((AF.map stripRank ++ BF).map (fun c => c.inclusion_percent))
      = lastSome (BF.map (fun c => c.inclusion_percent)) := by
  rw [List.map_append, lastSome_append]
  cases h : lastSome (BF.map (fun c => c.inclusion_percent)) with
  | some v => rfl
  | none =>
    have hall : ∀ x ∈ AF.map ((fun c => c.inclusion_percent) ∘ stripRank), x = none := by
      intro x hx
      obtain ⟨c, _, hc⟩ := List.mem_map.mp hx
      rw [← hc]; rfl
    simp [lastSome_of_all_none _ hall]

lemma map_strip_reason (AF BF : List CardRecord) :
    (AF.map stripRank ++ BF).map (fun c => c.reason)
      = (AF ++ BF).map (fun c => c.reason) := by
  rw [List.map_append, List.map_append, List.map_map]
  exact congrArg (· ++ _) (List.map_congr_left fun c _ => rfl)

/-- Alignment of the fold's closed form with the specification entry. -/
lemma spec_align (AF BF : List CardRecord) :
    (match (AF.map stripRank ++ BF).head? with
     | none => none
     | some c => some
       (⟨c.name, c.oracle_text,
         firstOccDedup ((AF.map stripRank ++ BF).map (fun x : CardRecord => x.reason)),
         lastSome ((AF.map stripRank ++ BF).map (fun x : CardRecord => x.edhrec_rank)),
         lastSome ((AF.map stripRank ++ BF).map (fun x : CardRecord => x.inclusion_percent))⟩
         : MergedCardRecord))
    = match (AF ++ BF).head? with
      | none => none
      | some c0 => some
        (⟨c0.name, c0.oracle_text,
          firstOccDedup ((AF ++ BF).map (fun x : CardRecord => x.reason)),
          lastSome (BF.map (fun x : CardRecord => x.edhrec_rank)),
          lastSome (BF.map (fun x : CardRecord => x.inclusion_percent))⟩
          : MergedCardRecord) := by
  rw [map_strip_reason, lastSome_rank_strip, lastSome_incl_strip]
  cases AF with
  | nil =>
    cases BF with
    | nil => rfl
    | cons b bs => rfl
  | cons a as => rfl

/-- Central characterization: the merged output's entry for every name is
exactly the specification entry. -/
lemma findName_merge (A B : List CardRecord) (n : String) :
    findName (merge_card_lists A B) n = mergeEntrySpec A B n := by
  rw [merge_card_lists_eq]
  rw [findName_sortByName _ (nodupNames_foldl _ [] (by simp)) n]
  rw [findName_foldl]
  rw [show findName ([] : List MergedCardRecord) n = none from rfl]
  rw [foldl_applyOpt_none]
  unfold mergeEntrySpec
  have hfilter : (A.map stripRank ++ B).filter (fun c => c.name == n)
      = (A.filter (fun c => c.name == n)).map stripRank
        ++ B.filter (fun c => c.name == n) := by
    rw [List.filter_append, List.filter_map]
    exact congrArg (· ++ _) (congrArg _ (List.filter_congr fun c _ => rfl))
  rw [hfilter, List.filter_append]
  exact spec_align (A.filter (fun c => c.name == n)) (B.filter (fun c => c.name == n))

/-! Ordering lemmas for the final sort. -/

lemma charListLe_total : ∀ a b : List Char, charListLe a b = true ∨ charListLe b a = true := by
  intro a
  induction a with
  | nil => intro b; left; rfl
  | cons x xs ih =>
    intro b
    cases b with
    | nil => right; rfl
    | cons y ys =>
      by_cases h1 : x.toNat < y.toNat
      · left; simp [charListLe, h1]
      · by_cases h2 : y.toNat < x.toNat
        · right; simp [charListLe, h2]
        · rcases ih ys with h | h
          · left; simp [charListLe, h1, h2, h]
          · right; simp [charListLe, h1, h2, h]

lemma charListLe_trans : ∀ a b c : List Char,
    charListLe a b = true → charListLe b c = true → charListLe a c = true := by
  intro a
  induction a with
  | nil => intro b c _ _; rfl
  | cons x xs ih =>
    intro b c hab hbc
    cases b with
    | nil => simp [charListLe] at hab
    | cons y ys =>
      cases c with
      | nil => simp [charListLe] at hbc
      | cons z zs =>
        simp only [charListLe] at hab hbc ⊢
        by_cases hxy : x.toNat < y.toNat
        · rw [if_pos hxy] at hab
          by_cases hyz : y.toNat < z.toNat
          · rw [if_pos (show x.toNat < z.toNat by omega)]
          · by_cases hzy : z.toNat < y.toNat
            · rw [if_neg hyz, if_pos hzy] at hbc; exact absurd hbc (by simp)
            · rw [if_pos (show x.toNat < z.toNat by omega)]
        · by_cases hyx : y.toNat < x.toNat
          · rw [if_neg hxy, if_pos hyx] at hab; exact absurd hab (by simp)
          · rw [if_neg hxy, if_neg hyx] at hab
            by_cases hyz : y.toNat < z.toNat
            · rw [if_pos (show x.toNat < z.toNat by omega)]
            · by_cases hzy : z.toNat < y.toNat
              · rw [if_neg hyz, if_pos hzy] at hbc; exact absurd hbc (by simp)
              · rw [if_neg hyz, if_neg hzy] at hbc
                rw [if_neg (show ¬ x.toNat < z.toNat by omega),
                  if_neg (show ¬ z.toNat < x.toNat by omega)]
                exact ih ys zs hab hbc

lemma sorted_sortByName (l : List MergedCardRecord) : List.Sorted nameLE (sortByName l) := by
  haveI : IsTotal MergedCardRecord nameLE :=
    ⟨fun a b => charListLe_total a.name.data b.name.data⟩
  haveI : IsTrans MergedCardRecord nameLE :=
    ⟨fun _ _ _ hab hbc => charListLe_trans _ _ _ hab hbc⟩
  exact List.sorted_insertionSort nameLE l

/-! Invariant: reasons lists never hold a duplicate. -/

lemma reasons_nodup_foldl (l : List CardRecord) (d : List MergedCardRecord)
    (h : ∀ m ∈ d, m.reasons.Nodup) :
    ∀ m ∈ List.foldl addHighInclusion d l, m.reasons.Nodup := by
  induction l generalizing d with
  | nil => exact h
  | cons c cs ih =>
    rw [List.foldl_cons]
    apply ih
    intro m hm
    unfold addHighInclusion at hm
    split at hm
    · rw [List.mem_append] at hm
      rcases hm with hm | hm
      · exact h m hm
      · rw [List.mem_singleton] at hm
        subst hm
        rw [setRankIncl_reasons]
        simp
    · obtain ⟨m0, hm0, hg⟩ := List.mem_map.mp hm
      subst hg
      split
      · rw [setRankIncl_reasons]
        unfold addReason
        split
        · exact h m0 hm0
        next hmem =>
          rw [List.nodup_append]
          exact ⟨h m0 hm0, by simp, by simpa using hmem⟩
      · exact h m0 hm0

/-- Every record of the merged output has duplicate-free reasons. -/
lemma reasons_nodup_merge (A B : List CardRecord) (m : MergedCardRecord)
    (hm : m ∈ merge_card_lists A B) : m.reasons.Nodup := by
  rw [merge_card_lists_eq] at hm
  unfold sortByName at hm
  have hm' := (List.perm_insertionSort nameLE _).mem_iff.mp hm
  exact reasons_nodup_foldl _ [] (by simp) m hm'

/-! Merging a list of distinct names against nothing embeds it. -/

lemma foldl_disjoint (A : List CardRecord) : ∀ d : List MergedCardRecord,
    (d.map (fun m => m.name) ++ A.map (fun c => c.name)).Nodup →
    List.foldl addHighInclusion d (A.map stripRank) = d ++ A.map toMerged1 := by
  induction A with
  | nil => intro d _; simp
  | cons c cs ih =>
    intro d h
    rw [List.map_cons, List.foldl_cons, List.map_cons]
    have hstep : addHighInclusion d (stripRank c) = d ++ [toMerged1 c] := by
      unfold addHighInclusion
      have hfind : (d.find? (fun m => m.name == (stripRank c).name)).isNone = true := by
        rw [Option.isNone_iff_eq_none]
        apply List.find?_eq_none.mpr
        intro m hm
        have h3 := (List.nodup_append.mp h).2.2
        have hne : m.name ≠ c.name := by
          intro he
          exact h3 (List.mem_map_of_mem (fun m => m.name) hm)
            (show m.name ∈ List.map (fun c => c.name) (c :: cs) by
              rw [he, List.map_cons]; exact List.mem_cons_self _ _)
        simpa using hne
      rw [if_pos hfind, setRankIncl_stripRank]
      rfl
    rw [hstep, ih (d ++ [toMerged1 c]) ?_]
    · rw [List.append_assoc]; rfl
    · rw [List.map_append]
      rw [show List.map (fun m => m.name) [toMerged1 c] = [c.name] from rfl]
      rw [List.append_assoc]
      exact h

/-- Merging a duplicate-free list with the empty list embeds each record
as a singleton-reason merged record, then sorts. -/
lemma merge_empty (A : List CardRecord) (h : (A.map (fun c => c.name)).Nodup) :
    merge_card_lists A [] = sortByName (A.map toMerged1) := by
  rw [merge_card_lists_eq, List.append_nil]
  rw [foldl_disjoint A [] (by simpa using h)]
  rw [List.nil_append]

/-! Character-level lemmas for the slug pipeline. -/

lemma mem_collapseAux (p : Char → Bool) (rep : Char) :
    ∀ (b : Bool) (l : List Char) (x : Char), x ∈ collapseAux p rep b l →
      x = rep ∨ (x ∈ l ∧ p x = false) := by
  intro b l
  induction l generalizing b with
  | nil => intro x hx; simp [collapseAux] at hx
  | cons c cs ih =>
    intro x hx
    unfold collapseAux at hx
    by_cases hc : p c = true
    · rw [if_pos hc] at hx
      by_cases hb : b = true
      · rw [if_pos hb] at hx
        rcases ih true x hx with h | ⟨h1, h2⟩
        · left; exact h
        · right; exact ⟨List.mem_cons_of_mem _ h1, h2⟩
      · rw [if_neg hb] at hx
        rcases List.mem_cons.mp hx with h | h
        · left; exact h
        · rcases ih true x h with h' | ⟨h1, h2⟩
          · left; exact h'
          · right; exact ⟨List.mem_cons_of_mem _ h1, h2⟩
    · rw [if_neg hc] at hx
      rcases List.mem_cons.mp hx with h | h
      · subst h; right; exact ⟨List.mem_cons_self _ _, by simpa using hc⟩
      · rcases ih false x h with h' | ⟨h1, h2⟩
        · left; exact h'
        · right; exact ⟨List.mem_cons_of_mem _ h1, h2⟩

lemma head_collapseAux_true (p : Char → Bool) (rep : Char) :
    ∀ (l : List Char) (x : Char), (collapseAux p rep true l).head? = some x → p x = false := by
  intro l
  induction l with
  | nil => intro x hx; simp [collapseAux] at hx
  | cons c cs ih =>
    intro x hx
    unfold collapseAux at hx
    by_cases hc : p c = true
    · rw [if_pos hc, if_pos rfl] at hx
      exact ih x hx
    · rw [if_neg hc, List.head?_cons] at hx
      have hcx : c = x := by simpa using hx
      subst hcx
      simpa using hc

lemma chain'_collapseAux (p : Char → Bool) (rep : Char) :
    ∀ (b : Bool) (l : List Char),
      List.Chain' (fun x y => ¬(p x = true ∧ p y = true)) (collapseAux p rep b l) := by
  intro b l
  induction l generalizing b with
  | nil => simp [collapseAux]
  | cons c cs ih =>
    unfold collapseAux
    by_cases hc : p c = true
    · rw [if_pos hc]
      by_cases hb : b = true
      · rw [if_pos hb]; exact ih true
      · rw [if_neg hb]
        rw [List.chain'_cons']
        refine ⟨?_, ih true⟩
        intro y hy hcon
        have hpy := head_collapseAux_true p rep cs y hy
        rw [hpy] at hcon
        exact Bool.false_ne_true hcon.2
    · rw [if_neg hc]
      rw [List.chain'_cons']
      refine ⟨?_, ih false⟩
      intro y hy hcon
      exact hc hcon.1

lemma mem_rtrim (p : Char → Bool) :
    ∀ (l : List Char) (x : Char), x ∈ rtrim p l → x ∈ l := by
  intro l
  induction l with
  | nil => intro x hx; simp [rtrim] at hx
  | cons c cs ih =>
    intro x hx
    unfold rtrim at hx
    by_cases hr : (rtrim p cs).isEmpty = true
    · rw [if_pos hr] at hx
      by_cases hp : p c = true
      · rw [if_pos hp] at hx; simp at hx
      · rw [if_neg hp] at hx
        rw [List.mem_singleton] at hx
        subst hx; exact List.mem_cons_self _ _
    · rw [if_neg hr] at hx
      rcases List.mem_cons.mp hx with h | h
      · subst h; exact List.mem_cons_self _ _
      · exact List.mem_cons_of_mem _ (ih x h)

lemma rtrim_head (p : Char → Bool) :
    ∀ (l : List Char) (x : Char), (rtrim p l).head? = some x → l.head? = some x := by
  intro l
  induction l with
  | nil => intro x hx; simp [rtrim] at hx
  | cons c cs _ =>
    intro x hx
    unfold rtrim at hx
    by_cases hr : (rtrim p cs).isEmpty = true
    · rw [if_pos hr] at hx
      by_cases hp : p c = true
      · rw [if_pos hp] at hx; simp at hx
      · rw [if_neg hp, List.head?_cons] at hx
        rw [List.head?_cons]; exact hx
    · rw [if_neg hr, List.head?_cons] at hx
      rw [List.head?_cons]; exact hx

lemma rtrim_getLast (p : Char → Bool) :
    ∀ (l : List Char) (x : Char), (rtrim p l).getLast? = some x → p x = false := by
  intro l
  induction l with
  | nil => intro x hx; simp [rtrim] at hx
  | cons c cs ih =>
    intro x hx
    unfold rtrim at hx
    by_cases hr : (rtrim p cs).isEmpty = true
    · rw [if_pos hr] at hx
      by_cases hp : p c = true
      · rw [if_pos hp] at hx; simp at hx
      · rw [if_neg hp] at hx
        have hxc : c = x := by simpa using hx
        subst hxc
        simpa using hp
    · rw [if_neg hr] at hx
      cases hg : (rtrim p cs).getLast? with
      | none =>
        have : rtrim p cs = [] := List.getLast?_eq_none_iff.mp hg
        rw [this] at hr
        simp at hr
      | some y =>
        rw [List.getLast?_cons, hg] at hx
        have hxy : y = x := by simpa using hx
        subst hxy
        exact ih _ hg

lemma chain'_rtrim (R : Char → Char → Prop) (p : Char → Bool) :
    ∀ l : List Char, List.Chain' R l → List.Chain' R (rtrim p l) := by
  intro l
  induction l with
  | nil => intro h; simp [rtrim]
  | cons c cs ih =>
    intro h
    unfold rtrim
    by_cases hr : (rtrim p cs).isEmpty = true
    · rw [if_pos hr]
      by_cases hp : p c = true
      · rw [if_pos hp]; simp
      · rw [if_neg hp]; simp
    · rw [if_neg hr]
      rw [List.chain'_cons']
      refine ⟨?_, ih (List.Chain'.tail h)⟩
      intro y hy
      have hcs : cs.head? = some y := rtrim_head p cs y hy
      exact (List.chain'_cons'.mp h).1 y hcs

lemma head_dropWhile (p : Char → Bool) :
    ∀ (l : List Char) (x : Char), (l.dropWhile p).head? = some x → p x = false := by
  intro l
  induction l with
  | nil => intro x hx; simp at hx
  | cons c cs ih =>
    intro x hx
    rw [List.dropWhile_cons] at hx
    by_cases hc : p c = true
    · rw [if_pos hc] at hx; exact ih x hx
    · rw [if_neg hc, List.head?_cons] at hx
      have hcx : c = x := by simpa using hx
      subst hcx
      simpa using hc

lemma chain'_dropWhile (R : Char → Char → Prop) (p : Char → Bool) :
    ∀ l : List Char, List.Chain' R l → List.Chain' R (l.dropWhile p) := by
  intro l
  induction l with
  | nil => intro h; simp
  | cons c cs ih =>
    intro h
    rw [List.dropWhile_cons]
    by_cases hc : p c = true
    · rw [if_pos hc]; exact ih (List.Chain'.tail h)
    · rw [if_neg hc]; exact h

/-! Properties of the full slug pipeline. -/

/-- Every character of a slug is a lowercase letter, a digit or a hyphen. -/
lemma sanitize_chars (name : String) :
    ∀ c ∈ (sanitize_card_name name).data,
      ('a' ≤ c ∧ c ≤ 'z') ∨ ('0' ≤ c ∧ c ≤ '9') ∨ c = '-' := by
  intro c hc
  unfold sanitize_card_name at hc
  have h1 := mem_rtrim isHyph _ c hc
  have h2 := List.Sublist.mem h1 (List.dropWhile_sublist _)
  rcases mem_collapseAux isHyph '-' false _ c h2 with h | ⟨h3, _⟩
  · right; right; exact h
  rcases mem_collapseAux isPySpace '-' false _ c h3 with h | ⟨h4, hns⟩
  · right; right; exact h
  rw [List.mem_filter] at h4
  have hk := h4.2
  unfold keepChar at hk
  simp only [Bool.or_eq_true, Bool.and_eq_true, decide_eq_true_eq] at hk
  rcases hk with ((h | h) | h) | h
  · left; exact h
  · right; left; exact h
  · rw [hns] at h; exact absurd h Bool.false_ne_true
  · right; right; simpa using h

/-- A slug never holds two adjacent hyphens. -/
lemma sanitize_no_adjacent (name : String) :
    List.Chain' (fun x y => ¬(x = '-' ∧ y = '-')) (sanitize_card_name name).data := by
  unfold sanitize_card_name
  have h1 := chain'_collapseAux isHyph '-' false
    (collapseRuns isPySpace '-' ((name.data.map Char.toLower).filter keepChar))
  have h2 : List.Chain' (fun x y => ¬(x = '-' ∧ y = '-'))
      (collapseRuns isHyph '-'
        (collapseRuns isPySpace '-' ((name.data.map Char.toLower).filter keepChar))) := by
    refine List.Chain'.imp ?_ h1
    intro a b hab hcon
    exact hab ⟨by simp [isHyph, hcon.1], by simp [isHyph, hcon.2]⟩
  exact chain'_rtrim _ _ _ (chain'_dropWhile _ _ _ h2)

/-- A slug never starts nor ends with a hyphen. -/
lemma sanitize_no_edge (name : String) :
    (∀ c, (sanitize_card_name name).data.head? = some c → c ≠ '-') ∧
    (∀ c, (sanitize_card_name name).data.getLast? = some c → c ≠ '-') := by
  constructor
  · intro c hc
    unfold sanitize_card_name at hc
    have h1 := rtrim_head isHyph _ c hc
    have h2 := head_dropWhile isHyph _ c h1
    simpa [isHyph] using h2
  · intro c hc
    unfold sanitize_card_name at hc
    have h1 := rtrim_getLast isHyph _ c hc
    simpa [isHyph] using h1

/-! Lemmas on the percentage extraction. -/

/-- A successful pattern match needs a percent sign in the text. -/
lemma matchPercentAt_mem (l : List Char) (g : List Char)
    (h : matchPercentAt l = some g) : '%' ∈ l := by
  unfold matchPercentAt at h
  by_cases hd : (l.takeWhile Char.isDigit).isEmpty = true
  · rw [if_pos hd] at h; exact absurd h (by simp)
  · rw [if_neg hd] at h
    split at h
    next r1 r2 heq =>
      split at h
      next rest heq2 =>
        have h2 : '%' ∈ r2 := List.Sublist.mem
          (by rw [heq2]; exact List.mem_cons_self _ _) (List.dropWhile_sublist _)
        have h3 : '%' ∈ l.dropWhile Char.isDigit := by
          rw [heq]; exact List.mem_cons_of_mem _ h2
        exact List.Sublist.mem h3 (List.dropWhile_sublist _)
      next => exact absurd h (by simp)
    next r1 tl heq =>
      have h3 : '%' ∈ l.dropWhile Char.isDigit := by
        rw [heq]; exact List.mem_cons_self _ _
      exact List.Sublist.mem h3 (List.dropWhile_sublist _)
    next => exact absurd h (by simp)

/-- re.search finds nothing in text holding no percent sign. -/
lemma searchPercent_eq_none (l : List Char) (h : '%' ∉ l) : searchPercent l = none := by
  induction l with
  | nil => rfl
  | cons c cs ih =>
    unfold searchPercent
    cases hm : matchPercentAt (c :: cs) with
    | some g => exact absurd (matchPercentAt_mem _ _ hm) h
    | none => exact ih fun hx => h (List.mem_cons_of_mem _ hx)

/-! Partial-result behavior of the paginated fetchers. -/

/-- The catalog fetch stops at the first non-success page and keeps the
earlier records. -/
lemma fetch_commander_stops_at_error (good : List HttpResp) (bad : HttpResp) (rest : List HttpResp)
    (hgood : ∀ r ∈ good, r.status = 200 ∧ r.has_more = true) (hbad : bad.status ≠ 200) :
    fetch_commander_only_cards (good ++ bad :: rest)
      = (good.map (fun r => r.data.map commanderRecord)).flatten := by
  induction good with
  | nil =>
    rw [List.nil_append]
    unfold fetch_commander_only_cards
    rw [if_pos hbad]
    rfl
  | cons r good ih =>
    rw [List.cons_append]
    unfold fetch_commander_only_cards
    obtain ⟨h200, hmore⟩ := hgood r (by simp)
    rw [if_neg (fun hne => hne h200), if_pos hmore]
    rw [ih fun x hx => hgood x (by simp [hx])]
    rw [List.map_cons, List.flatten_cons]

/-- On a page where no looked-up percentage is below the threshold, the
inner loop emits one record per at-threshold card, looks every card up,
and does not stop. -/
lemma hiPage_no_stop (incl : String → Option Rat) (th : Rat) (cards : List ScryCard)
    (h : ∀ c ∈ cards, ∀ p, incl c.name = some p → th ≤ p) :
    hiPage incl th cards =
      (pageEmit incl th cards, cards.map (fun c => c.name), false) := by
  induction cards with
  | nil => rfl
  | cons c cs ih =>
    unfold hiPage
    cases hx : incl c.name with
    | none =>
      rw [ih fun x hxm p hp => h x (by simp [hxm]) p hp]
      simp [pageEmit, List.filterMap_cons, hx]
    | some p =>
      have hthp : th ≤ p := h c (by simp) p hx
      rw [ih fun x hxm q hq => h x (by simp [hxm]) q hq]
      simp [pageEmit, List.filterMap_cons, hx, hthp]

/-- The high-inclusion fetch stops at the first non-success page and
keeps the earlier records, provided no earlier card stopped the scan. -/
lemma fetch_hi_stops_at_error (incl : String → Option Rat) (th : Rat)
    (good : List HttpResp) (bad : HttpResp) (rest : List HttpResp)
    (hgood : ∀ r ∈ good, r.status = 200 ∧ r.has_more = true) (hbad : bad.status ≠ 200)
    (hnostop : ∀ r ∈ good, ∀ c ∈ r.data, ∀ p, incl c.name = some p → th ≤ p) :
    fetch_high_inclusion_cards incl th (good ++ bad :: rest)
      = (good.map (fun r => pageEmit incl th r.data)).flatten := by
  induction good with
  | nil =>
    rw [List.nil_append]
    unfold fetch_high_inclusion_cards fetch_high_inclusion_trace
    rw [if_pos hbad]
    rfl
  | cons r good ih =>
    rw [List.cons_append]
    unfold fetch_high_inclusion_cards fetch_high_inclusion_trace
    obtain ⟨h200, hmore⟩ := hgood r (by simp)
    rw [if_neg (fun hne => hne h200)]
    rw [hiPage_no_stop incl th r.data (hnostop r (by simp))]
    rw [if_neg (by simp), if_pos hmore]
    have ih' := ih (fun x hx => hgood x (by simp [hx]))
      (fun x hx c hc p hp => hnostop x (by simp [hx]) c hc p hp)
    unfold fetch_high_inclusion_cards at ih'
    rw [List.map_cons, List.flatten_cons, ← ih']

/-! Remaining support lemmas for the claim theorems. -/

lemma mergeEntrySpec_isSome (A B : List CardRecord) (n : String) :
    (mergeEntrySpec A B n).isSome
      = !((A ++ B).filter (fun c => c.name == n)).isEmpty := by
  unfold mergeEntrySpec
  cases h : ((A ++ B).filter (fun c => c.name == n)).head? with
  | none => rw [List.head?_eq_none_iff.mp h]; rfl
  | some c0 =>
    cases hl : (A ++ B).filter (fun c => c.name == n) with
    | nil => rw [hl] at h; simp at h
    | cons z zs => rfl

lemma reasonsAt_merge (A B : List CardRecord) (n : String) :
    reasonsAt (merge_card_lists A B) n
      = firstOccDedup (((A ++ B).filter (fun c => c.name == n)).map (fun c => c.reason)) := by
  unfold reasonsAt
  rw [findName_merge]
  unfold mergeEntrySpec
  cases h : ((A ++ B).filter (fun c => c.name == n)).head? with
  | none =>
    rw [List.head?_eq_none_iff.mp h]
    simp [firstOccDedup]
  | some c0 => rfl

lemma find?_eq_head_filter {α : Type} (p : α → Bool) (l : List α) :
    l.find? p = (l.filter p).head? := by
  induction l with
  | nil => rfl
  | cons x xs ih =>
    rw [List.filter_cons]
    by_cases h : p x = true
    · rw [if_pos h, List.find?_cons_of_pos _ h, List.head?_cons]
    · rw [if_neg h, List.find?_cons_of_neg _ h, ih]

lemma nodupNames_merge (A B : List CardRecord) :
    ((merge_card_lists A B).map (fun m => m.name)).Nodup := by
  rw [merge_card_lists_eq]
  unfold sortByName
  exact (((List.perm_insertionSort nameLE _).map (fun m => m.name)).nodup_iff).mpr
    (nodupNames_foldl _ [] (by simp))

/-! The claim theorems. -/

/-- Claim C1, counterexample: the claim states that a record of the first
input list that supplies edhrec_rank and inclusion_percent overwrites the
existing merged record's fields, as second-list records do.  It is false:
here the second first-list record supplies rank 5 and inclusion 1, yet
the merged record keeps both fields unset. -/
theorem claim1_counterexample :
    (merge_card_lists
        [⟨"a", "t", "r1", none, none⟩, ⟨"a", "t", "r2", some 5, some 1⟩] []).map
      (fun m => (m.edhrec_rank, m.inclusion_percent)) = [(none, none)]
    ∧ (⟨"a", "t", "r2", some 5, some 1⟩ : CardRecord).edhrec_rank = some 5
    ∧ (⟨"a", "t", "r2", some 5, some 1⟩ : CardRecord).inclusion_percent = some 1 := by
  decide

/-- Claim C1 (amended): merge builds a mapping keyed by name; for each
input list in order, each record either inserts a new merged record or
appends its reason if not already present; the edhrec_rank and
inclusion_percent fields are set or overwritten only by records of the
second input list, whenever they supply them — first-list records never
set them.  Stated as: the merged entry of every name equals the
specification entry. -/
theorem claim1_merge_algorithm (A B : List CardRecord) (n : String) :
    findName (merge_card_lists A B) n = mergeEntrySpec A B n :=
  findName_merge A B n

/-- Claim C2, counterexample: the claim states the only asymmetry between
merge(A, B) and merge(B, A) is which source's rank/inclusion value wins.
It is false: with identical reasons and identical (absent) rank and
inclusion values on both sides, the two results still differ, because
oracle_text is first-write-wins. -/
theorem claim2_counterexample :
    merge_card_lists [⟨"a", "x", "r", none, none⟩] [⟨"a", "y", "r", none, none⟩]
      ≠ merge_card_lists [⟨"a", "y", "r", none, none⟩] [⟨"a", "x", "r", none, none⟩]
    ∧ (merge_card_lists [⟨"a", "x", "r", none, none⟩] [⟨"a", "y", "r", none, none⟩]).map
        (fun m => (m.edhrec_rank, m.inclusion_percent))
      = (merge_card_lists [⟨"a", "y", "r", none, none⟩] [⟨"a", "x", "r", none, none⟩]).map
        (fun m => (m.edhrec_rank, m.inclusion_percent))
    ∧ (merge_card_lists [⟨"a", "x", "r", none, none⟩] [⟨"a", "y", "r", none, none⟩]).map
        (fun m => m.reasons)
      = (merge_card_lists [⟨"a", "y", "r", none, none⟩] [⟨"a", "x", "r", none, none⟩]).map
        (fun m => m.reasons) := by
  decide

/-- Claim C2 (amended): merge(A, B) and merge(B, A) yield the same key
set and the same name-to-set-of-reasons mapping; the asymmetries between
the two results are which source's rank/inclusion value wins (the second
list's supplied values win) and which source's oracle_text wins (the
first occurrence wins), besides the order of the reasons. -/
theorem claim2_key_reasons_symmetric (A B : List CardRecord) (n : String) :
    ((findName (merge_card_lists A B) n).isSome
      = (findName (merge_card_lists B A) n).isSome)
    ∧ ∀ s, s ∈ reasonsAt (merge_card_lists A B) n
        ↔ s ∈ reasonsAt (merge_card_lists B A) n := by
  constructor
  · rw [findName_merge, findName_merge, mergeEntrySpec_isSome, mergeEntrySpec_isSome]
    have hiff : ((A ++ B).filter (fun c => c.name == n) = [])
        ↔ ((B ++ A).filter (fun c => c.name == n) = []) := by
      rw [List.filter_eq_nil_iff, List.filter_eq_nil_iff]
      constructor <;> intro hh x hx <;>
        exact hh x (by rw [List.mem_append] at hx ⊢; exact hx.symm)
    cases h1 : (A ++ B).filter (fun c => c.name == n) with
    | nil => rw [hiff.mp h1]
    | cons x xs =>
      cases h2 : (B ++ A).filter (fun c => c.name == n) with
      | nil => exact absurd (hiff.mpr h2) (by simp [h1])
      | cons y ys => rfl
  · intro s
    rw [reasonsAt_merge, reasonsAt_merge, mem_firstOccDedup, mem_firstOccDedup]
    constructor <;> intro hs
    · obtain ⟨c, hc, hcs⟩ := List.mem_map.mp hs
      rw [List.mem_filter, List.mem_append] at hc
      exact List.mem_map.mpr
        ⟨c, List.mem_filter.mpr ⟨List.mem_append.mpr hc.1.symm, hc.2⟩, hcs⟩
    · obtain ⟨c, hc, hcs⟩ := List.mem_map.mp hs
      rw [List.mem_filter, List.mem_append] at hc
      exact List.mem_map.mpr
        ⟨c, List.mem_filter.mpr ⟨List.mem_append.mpr hc.1.symm, hc.2⟩, hcs⟩

/-- Claim C3, counterexample: the claim states that merging any list with
an empty list yields exactly that list's records, each appearing once
with its reasons list unchanged.  It is false when the list repeats a
name: the two records fuse into one merged record whose reasons list is
the concatenation of both reasons. -/
theorem claim3_counterexample :
    (merge_card_lists
        [⟨"a", "t", "r1", none, none⟩, ⟨"a", "t", "r2", none, none⟩] []).length
      ≠ ([⟨"a", "t", "r1", none, none⟩, ⟨"a", "t", "r2", none, none⟩]
          : List CardRecord).length
    ∧ merge_card_lists [⟨"a", "t", "r1", none, none⟩, ⟨"a", "t", "r2", none, none⟩] []
      = [⟨"a", "t", ["r1", "r2"], none, none⟩] := by
  decide

/-- Claim C3 (amended): for every input list whose record names are
pairwise distinct, merging it with an empty list yields exactly that
list's records in name-sorted order — each record appears once, with
reasons the singleton of its reason and no duplication. -/
theorem claim3_merge_empty (A : List CardRecord)
    (h : (A.map (fun c => c.name)).Nodup) :
    merge_card_lists A [] = sortByName (A.map toMerged1) :=
  merge_empty A h

/-- Witness for claim C3 at a concrete two-record list. -/
theorem claim3_witness :
    ((([⟨"b", "tb", "r1", none, none⟩, ⟨"a", "ta", "r2", some 3, none⟩]
        : List CardRecord).map (fun c => c.name)).Nodup)
    ∧ merge_card_lists
        [⟨"b", "tb", "r1", none, none⟩, ⟨"a", "ta", "r2", some 3, none⟩] []
      = sortByName (([⟨"b", "tb", "r1", none, none⟩, ⟨"a", "ta", "r2", some 3, none⟩]
          : List CardRecord).map toMerged1) :=
  ⟨by decide, claim3_merge_empty _ (by decide)⟩

/-- Claim C4: with rank-ordered inclusion percentages 10, 8, 3, 9 and
threshold 7.5, the scan emits records for the first two cards, stops at
the third (first below threshold), and never performs a statistics
lookup for the fourth card although its percentage 9 exceeds the
threshold — the trace lists exactly the lookups made, and a further page
is never touched.  A card whose lookup yields no percentage is skipped
without triggering the stop. -/
theorem claim4_early_stop :
    fetch_high_inclusion_trace mockIncl (mkRat 15 2)
      [⟨200, [⟨"card1", "", some 1⟩, ⟨"card2", "", some 2⟩, ⟨"card3", "", some 3⟩,
        ⟨"card4", "", some 4⟩], true⟩, ⟨200, [⟨"card5", "", some 5⟩], false⟩]
      = ([hiRecord ⟨"card1", "", some 1⟩ 10, hiRecord ⟨"card2", "", some 2⟩ 8],
         ["card1", "card2", "card3"])
    ∧ mockIncl "card4" = some 9 ∧ mkRat 15 2 < 9
    ∧ fetch_high_inclusion_trace mockIncl (mkRat 15 2)
        [⟨200, [⟨"card1", "", some 1⟩, ⟨"cardX", "", some 2⟩, ⟨"cardB", "", some 6⟩,
          ⟨"card3", "", some 3⟩, ⟨"card4", "", some 4⟩], false⟩]
      = ([hiRecord ⟨"card1", "", some 1⟩ 10, hiRecord ⟨"cardB", "", some 6⟩ 8],
         ["card1", "cardX", "cardB", "card3"]) := by
  decide

/-- Claim C5: every record of the merged output has a reasons list with
no duplicate strings; in particular a reason occurring in both inputs
for the same name is stored exactly once. -/
theorem claim5_no_duplicate_reasons (A B : List CardRecord) (m : MergedCardRecord)
    (hm : m ∈ merge_card_lists A B) : m.reasons.Nodup :=
  reasons_nodup_merge A B m hm

/-- Witness for claim C5: the same reason in both inputs is kept once. -/
theorem claim5_witness :
    (⟨"a", "t", ["r"], some 5, some 2⟩ : MergedCardRecord)
        ∈ merge_card_lists [⟨"a", "t", "r", none, none⟩] [⟨"a", "t", "r", some 5, some 2⟩]
    ∧ ((⟨"a", "t", ["r"], some 5, some 2⟩ : MergedCardRecord).reasons).Nodup :=
  ⟨by decide, claim5_no_duplicate_reasons [⟨"a", "t", "r", none, none⟩]
    [⟨"a", "t", "r", some 5, some 2⟩] ⟨"a", "t", ["r"], some 5, some 2⟩ (by decide)⟩

/-- Claim C6: for every pair of input lists — hence for any permutation
of the records within them — the merged output is sorted by name in
ascending lexicographic (code-point) order. -/
theorem claim6_sorted (A B : List CardRecord) :
    List.Sorted nameLE (merge_card_lists A B) := by
  unfold merge_card_lists
  exact sorted_sortByName _

/-- Claim C7: slug derivation lowercases, strips characters outside
lowercase-alphanumeric/whitespace/hyphen, collapses whitespace runs to
single hyphens, collapses repeated hyphens and trims edge hyphens: the
two named examples hold, internal space runs collapse to one hyphen, and
for every name the slug holds only lowercase alphanumerics and hyphens,
never two adjacent hyphens, and never a leading or trailing hyphen. -/
theorem claim7_slug (name : String) :
    sanitize_card_name "Uril, the Miststalker" = "uril-the-miststalker"
    ∧ sanitize_card_name "Kenrith's Transformation" = "kenriths-transformation"
    ∧ sanitize_card_name "Sol   Ring" = "sol-ring"
    ∧ (∀ c ∈ (sanitize_card_name name).data,
        ('a' ≤ c ∧ c ≤ 'z') ∨ ('0' ≤ c ∧ c ≤ '9') ∨ c = '-')
    ∧ List.Chain' (fun x y => ¬(x = '-' ∧ y = '-')) (sanitize_card_name name).data
    ∧ (∀ c, (sanitize_card_name name).data.head? = some c → c ≠ '-')
    ∧ (∀ c, (sanitize_card_name name).data.getLast? = some c → c ≠ '-') :=
  ⟨by decide, by decide, by decide, sanitize_chars name, sanitize_no_adjacent name,
   (sanitize_no_edge name).1, (sanitize_no_edge name).2⟩

/-- Witness for claim C7 on a name with edge punctuation and spaces. -/
theorem claim7_witness :
    (('a' ≤ 'b' ∧ 'b' ≤ 'z') ∨ ('0' ≤ 'b' ∧ 'b' ≤ '9') ∨ 'b' = '-')
    ∧ 'a' ≠ '-'
    ∧ 'c' ≠ '-' :=
  ⟨(claim7_slug "?!Ab  -c-").2.2.2.1 'b' (by decide),
   (claim7_slug "?!Ab  -c-").2.2.2.2.2.1 'a' (by decide),
   (claim7_slug "?!Ab  -c-").2.2.2.2.2.2 'c' (by decide)⟩

/-- Claim C8: percentage extraction matches a decimal-percent pattern:
the documented label yields 0.09 (the rational 9/100), and a label with
no percent sign yields no value, so the card is skipped. -/
theorem claim8_percent_extraction :
    get_edhrec_inclusion_from_label "In 700 decks \n0.09% of 814495 decks"
      = some (mkRat 9 100)
    ∧ ∀ label : String, '%' ∉ label.data → get_edhrec_inclusion_from_label label = none :=
  ⟨by decide, fun label h => by
    unfold get_edhrec_inclusion_from_label
    rw [searchPercent_eq_none label.data h]
    rfl⟩

/-- Witness for claim C8 at a percent-free label. -/
theorem claim8_witness :
    '%' ∉ ("In 700 decks" : String).data
    ∧ get_edhrec_inclusion_from_label "In 700 decks" = none :=
  ⟨by decide, claim8_percent_extraction.2 "In 700 decks" (by decide)⟩

/-- Claim C9: when a page yields a non-success HTTP status, the catalog
fetch terminates pagination at that page and returns exactly the records
accumulated from the earlier successful pages, without raising an error;
likewise the high-inclusion fetch, provided no earlier card triggered
the threshold stop. -/
theorem claim9_error_ends_pagination (good : List HttpResp) (bad : HttpResp)
    (rest : List HttpResp) (incl : String → Option Rat) (th : Rat)
    (hgood : ∀ r ∈ good, r.status = 200 ∧ r.has_more = true)
    (hbad : bad.status ≠ 200) :
    fetch_commander_only_cards (good ++ bad :: rest)
      = (good.map (fun r => r.data.map commanderRecord)).flatten
    ∧ ((∀ r ∈ good, ∀ c ∈ r.data, ∀ p, incl c.name = some p → th ≤ p) →
        fetch_high_inclusion_cards incl th (good ++ bad :: rest)
          = (good.map (fun r => pageEmit incl th r.data)).flatten) :=
  ⟨fetch_commander_stops_at_error good bad rest hgood hbad,
   fun hnostop => fetch_hi_stops_at_error incl th good bad rest hgood hbad hnostop⟩

/-- Witness for claim C9: one successful page, then a 404, then a page
that is never requested. -/
theorem claim9_witness :
    fetch_commander_only_cards
        [⟨200, [⟨"c1", "t1", some 1⟩], true⟩, ⟨404, [⟨"zz", "", none⟩], true⟩,
         ⟨200, [⟨"c9", "", none⟩], false⟩]
      = [commanderRecord ⟨"c1", "t1", some 1⟩]
    ∧ fetch_high_inclusion_cards (fun _ => some 10) 5
        [⟨200, [⟨"c1", "t1", some 1⟩], true⟩, ⟨404, [⟨"zz", "", none⟩], true⟩,
         ⟨200, [⟨"c9", "", none⟩], false⟩]
      = [hiRecord ⟨"c1", "t1", some 1⟩ 10] := by
  have h := claim9_error_ends_pagination [⟨200, [⟨"c1", "t1", some 1⟩], true⟩]
    ⟨404, [⟨"zz", "", none⟩], true⟩ [⟨200, [⟨"c9", "", none⟩], false⟩]
    (fun _ => some 10) 5 (by decide) (by decide)
  refine ⟨?_, ?_⟩
  · exact h.1.trans (by decide)
  · exact (h.2 (fun r _ c _ p hp => by
      have h10 : (10 : Rat) = p := Option.some.inj hp
      rw [← h10]
      decide)).trans (by decide)

/-- Claim C10: the oracle_text of each merged record equals the
oracle_text of the first record bearing that name in scan order (first
list before second); later same-name records never change it. -/
theorem claim10_oracle_first_wins (A B : List CardRecord) (m : MergedCardRecord)
    (hm : m ∈ merge_card_lists A B) :
    ((A ++ B).find? (fun c => c.name == m.name)).map (fun c => c.oracle_text)
      = some m.oracle_text := by
  have hf : findName (merge_card_lists A B) m.name = some m :=
    findName_of_mem (nodupNames_merge A B) hm
  rw [findName_merge] at hf
  unfold mergeEntrySpec at hf
  rw [find?_eq_head_filter]
  cases hh : ((A ++ B).filter (fun c => c.name == m.name)).head? with
  | none => rw [hh] at hf; exact absurd hf (by simp)
  | some c0 =>
    rw [hh] at hf
    have hmeq := Option.some.inj hf
    rw [Option.map_some', ← hmeq]

/-- Witness for claim C10: a name in both lists keeps the first list's
oracle text while the second list's rank and inclusion win. -/
theorem claim10_witness :
    (⟨"a", "first", ["r", "s"], some 5, some 2⟩ : MergedCardRecord)
        ∈ merge_card_lists [⟨"a", "first", "r", none, none⟩]
            [⟨"a", "second", "s", some 5, some 2⟩]
    ∧ ((([⟨"a", "first", "r", none, none⟩] ++ [⟨"a", "second", "s", some 5, some 2⟩])
          : List CardRecord).find?
        (fun c => c.name
          == (⟨"a", "first", ["r", "s"], some 5, some 2⟩ : MergedCardRecord).name)).map
        (fun c => c.oracle_text)
      = some (⟨"a", "first", ["r", "s"], some 5, some 2⟩ : MergedCardRecord).oracle_text :=
  ⟨by decide, claim10_oracle_first_wins [⟨"a", "first", "r", none, none⟩]
    [⟨"a", "second", "s", some 5, some 2⟩]
    ⟨"a", "first", ["r", "s"], some 5, some 2⟩ (by decide)⟩

end Boomer
